import Mathlib

/-!
Shallow embedding of the sonata-log ingestion-and-metrics pipeline
(`src/analyzer.py`, `src/app.py`).  Times, durations and amplitudes are
modelled as rationals (`ℚ`), idealizing Python float arithmetic; MIDI
messages carry their mido delta time (`msg.time`).  External collaborators
(librosa, basic_pitch, the filesystem, the database) enter as explicit
inputs of the embedded functions.
-/

namespace SonataLog

/-- A mido message as consumed by `calculate_metrics_from_midi`: a note-on
with note number, velocity and delta time, a note-off with note number and
delta time, or any other message (which only advances the running clock). -/
inductive MidiMsg where
  | noteOn (note : Nat) (velocity : Nat) (time : ℚ)
  | noteOff (note : Nat) (time : ℚ)
  | other (time : ℚ)
deriving DecidableEq, Repr

/-- The delta time carried by a message (`msg.time` in mido). -/
def MidiMsg.time : MidiMsg → ℚ
  | .noteOn _ _ t => t
  | .noteOff _ t => t
  | .other t => t

/-- `MIN_VELOCITY` from `calculate_metrics_from_midi`. -/
def MIN_VELOCITY : Nat := 70

/-- The state folded over the message stream: `current_time`, `keystrokes`,
the `active_notes` dict (insertion-ordered association list, as a Python
dict) and the accumulated `valid_raw_intervals`. -/
structure ExtractState where
  time : ℚ
  keystrokes : Nat
  active : List (Nat × ℚ)
  raw : List (ℚ × ℚ)
deriving DecidableEq, Repr

/-- `active_notes[note] = t`: a Python dict assignment keeps the insertion
position of an existing key and appends a fresh key at the end. -/
def updateActive (l : List (Nat × ℚ)) (n : Nat) (t : ℚ) : List (Nat × ℚ) :=
  if l.any (fun p => p.1 = n) then
    l.map (fun p => if p.1 = n then (n, t) else p)
  else
    l ++ [(n, t)]

/-- `note in active_notes` plus the looked-up start time. -/
def lookupActive (l : List (Nat × ℚ)) (n : Nat) : Option ℚ :=
  (l.find? (fun p => p.1 = n)).map (fun p => p.2)

/-- `active_notes.pop(note)`: dict keys are unique, so removal is a filter. -/
def removeActive (l : List (Nat × ℚ)) (n : Nat) : List (Nat × ℚ) :=
  l.filter (fun p => ¬ p.1 = n)

/-- One iteration of the `for msg in mid` loop of
`calculate_metrics_from_midi`: advance `current_time`; on a note-on with
velocity ≥ `MIN_VELOCITY` count a keystroke and (over)write
`active_notes[note]`; on a note-off or zero-velocity note-on close the
pending interval if one exists and it has strictly positive duration. -/
def stepMsg (st : ExtractState) (m : MidiMsg) : ExtractState :=
  match m with
  | .noteOn n v t =>
    let ct := st.time + t
    if MIN_VELOCITY ≤ v then
      { st with time := ct, keystrokes := st.keystrokes + 1,
                active := updateActive st.active n ct }
    else if v = 0 then
      match lookupActive st.active n with
      | some s =>
        { st with time := ct, active := removeActive st.active n,
                  raw := if s < ct then st.raw ++ [(s, ct)] else st.raw }
      | none => { st with time := ct }
    else
      { st with time := ct }
  | .noteOff n t =>
    let ct := st.time + t
    match lookupActive st.active n with
    | some s =>
      { st with time := ct, active := removeActive st.active n,
                raw := if s < ct then st.raw ++ [(s, ct)] else st.raw }
    | none => { st with time := ct }
  | .other t => { st with time := st.time + t }

/-- The initial extraction state (`current_time = 0.0`, `keystrokes = 0`,
empty dict, empty interval list). -/
def initState : ExtractState := ⟨0, 0, [], []⟩

/-- "Close any lingering notes": every still-pending note with
`current_time > start_t` contributes `(start_t, current_time)`. -/
def finalRaw (st : ExtractState) : List (ℚ × ℚ) :=
  st.raw ++ (st.active.filter (fun p => p.2 < st.time)).map (fun p => (p.2, st.time))

/-- `valid_raw_intervals.sort(key=lambda x: x[0])` (a stable sort on the
start component). -/
def sortIntervals (l : List (ℚ × ℚ)) : List (ℚ × ℚ) :=
  l.insertionSort (fun a b => a.1 ≤ b.1)

/-- `gap_threshold = 2.0`. -/
def gap_threshold : ℚ := 2

/-- Sealing a merged group: pad by 0.5 s on both ends, clamp the start at 0
and the end at `duration_orig`. -/
def sealInterval (dur cs ce : ℚ) : ℚ × ℚ :=
  (max 0 (cs - 1/2), min dur (ce + 1/2))

/-- The merge loop of `calculate_metrics_from_midi`, carrying
`(curr_start, curr_end)` and emitting a sealed interval whenever the next
raw interval starts more than `gap_threshold` after the current end. -/
def mergeGo (dur : ℚ) : ℚ → ℚ → List (ℚ × ℚ) → List (ℚ × ℚ)
  | cs, ce, [] => [sealInterval dur cs ce]
  | cs, ce, (ns, ne) :: rest =>
    if ns - ce ≤ gap_threshold then
      mergeGo dur cs (max ce ne) rest
    else
      sealInterval dur cs ce :: mergeGo dur ns ne rest

/-- Gap-tolerant merging of the (sorted) raw intervals, including padding
and clamping of each sealed group. -/
def mergeIntervals (dur : ℚ) : List (ℚ × ℚ) → List (ℚ × ℚ)
  | [] => []
  | (s, e) :: rest => mergeGo dur s e rest

/-- The dictionary returned by `calculate_metrics_from_midi`. -/
structure MidiMetrics where
  active_duration : ℚ
  efficiency : ℚ
  keystrokes : Nat
  intervals : List (ℚ × ℚ)
deriving DecidableEq, Repr

/-- `calculate_metrics_from_midi` (src/analyzer.py, lines 126-209) on an
already-parsed message stream: extract valid note intervals, close
lingering notes, sort, merge with gap tolerance, pad and clamp, and
aggregate active duration and efficiency. -/
def calculate_metrics_from_midi (msgs : List MidiMsg) (duration_orig : ℚ) : MidiMetrics :=
  let st := msgs.foldl stepMsg initState
  let raw := finalRaw st
  if raw = [] then
    ⟨0, 0, st.keystrokes, []⟩
  else
    let merged := mergeIntervals duration_orig (sortIntervals raw)
    let act := (merged.map (fun p => p.2 - p.1)).sum
    let eff := if 0 < duration_orig then act / duration_orig else 0
    ⟨act, eff, st.keystrokes, merged⟩

/-- Spec-side variant of the dict update, following the spec's words: "If an
attack for a note arrives while that note already has a pending unmatched
attack, the new attack is ignored for interval purposes (the earliest
unmatched attack wins)".  Used only to compare the code's overwrite policy
against the spec's keep-earliest policy. -/
def updateActiveKeepEarliest (l : List (Nat × ℚ)) (n : Nat) (t : ℚ) : List (Nat × ℚ) :=
  if l.any (fun p => p.1 = n) then l else l ++ [(n, t)]

/-- Spec-side step function: identical to `stepMsg` except that a
qualifying attack for an already-pending note keeps the earliest pending
start time. -/
def stepMsgKeepEarliest (st : ExtractState) (m : MidiMsg) : ExtractState :=
  match m with
  | .noteOn n v t =>
    let ct := st.time + t
    if MIN_VELOCITY ≤ v then
      { st with time := ct, keystrokes := st.keystrokes + 1,
                active := updateActiveKeepEarliest st.active n ct }
    else if v = 0 then
      match lookupActive st.active n with
      | some s =>
        { st with time := ct, active := removeActive st.active n,
                  raw := if s < ct then st.raw ++ [(s, ct)] else st.raw }
      | none => { st with time := ct }
    else
      { st with time := ct }
  | .noteOff n t =>
    let ct := st.time + t
    match lookupActive st.active n with
    | some s =>
      { st with time := ct, active := removeActive st.active n,
                raw := if s < ct then st.raw ++ [(s, ct)] else st.raw }
    | none => { st with time := ct }
  | .other t => { st with time := st.time + t }

/-- Spec-side metrics under the keep-earliest-start policy of §4.4 step 2,
for comparison with `calculate_metrics_from_midi`. -/
def specKeepEarliestMetrics (msgs : List MidiMsg) (duration_orig : ℚ) : MidiMetrics :=
  let st := msgs.foldl stepMsgKeepEarliest initState
  let raw := finalRaw st
  if raw = [] then
    ⟨0, 0, st.keystrokes, []⟩
  else
    let merged := mergeIntervals duration_orig (sortIntervals raw)
    let act := (merged.map (fun p => p.2 - p.1)).sum
    let eff := if 0 < duration_orig then act / duration_orig else 0
    ⟨act, eff, st.keystrokes, merged⟩

/-! ## `analyze_audio` (src/analyzer.py, lines 33-124)

The audio signal is a list of rational sample amplitudes, the native
sample rate a natural number; `librosa.feature.rms` is an external
collaborator, so the short-time RMS curve enters as an input.  The
external transcription step (`predict_and_save` plus the existence check
and MIDI parse of the generated artifact) enters as a
`TranscriptionOutcome`.  The returned Bool records whether
`predict_and_save` was invoked. -/

/-- `np.max` over a list (the Python call errors on an empty array; the
embedding's value on `[]` is never reached because every use is guarded). -/
def npMax : List ℚ → ℚ
  | [] => 0
  | x :: xs => xs.foldl max x

/-- `y / (np.max(np.abs(y)) + 1e-9)`. -/
def normalize (y : List ℚ) : List ℚ :=
  y.map (fun v => v / (npMax (y.map (fun a => |a|)) + 1 / 1000000000))

/-- The hop length of `generate_waveform_data`: `sr // target_sr`, bumped
to 1 when not positive. -/
def hopLength (sr : Nat) : Nat :=
  if sr / 100 = 0 then 1 else sr / 100

/-- `generate_waveform_data` (src/analyzer.py, lines 22-31): the maximum
absolute amplitude of each `hopLength`-sized window. -/
def generate_waveform_data (y : List ℚ) (sr : Nat) : List ℚ :=
  (List.toChunks (hopLength sr) y).map (fun w => npMax (w.map (fun a => |a|)))

/-- Outcome of the external transcription attempt: `predict_and_save`
raised; it returned but the expected MIDI artifact is absent; or the
artifact exists and parses to a message stream (`events = none` models a
MIDI file `calculate_metrics_from_midi` fails on). -/
inductive TranscriptionOutcome where
  | raises
  | noArtifact
  | artifact (events : Option (List MidiMsg))
deriving DecidableEq, Repr

/-- The dictionary returned by `analyze_audio`. -/
structure AudioResult where
  total_duration : ℚ
  active_duration : ℚ
  efficiency : ℚ
  keystrokes : Nat
  intervals : List (ℚ × ℚ)
  waveform : List ℚ
  midi_filename : Option String
deriving DecidableEq, Repr

/-- `analyze_audio`: normalize, compute total duration, short-circuit on an
empty or all-zero RMS curve, otherwise attempt transcription and derive
metrics, degrading to zeros on failure.  `midiName` is the derived
artifact name (source stem + "_basic_pitch.mid"); the second component of
the result records whether the transcription collaborator was invoked. -/
def analyze_audio (y : List ℚ) (sr : Nat) (rms : List ℚ)
    (outcome : TranscriptionOutcome) (midiName : String) : AudioResult × Bool :=
  let yNorm := normalize y
  let dur : ℚ := (y.length : ℚ) / (sr : ℚ)
  let wave := generate_waveform_data yNorm sr
  if rms = [] ∨ npMax rms = 0 then
    (⟨dur, 0, 0, 0, [], wave, none⟩, false)
  else
    match outcome with
    | .raises => (⟨dur, 0, 0, 0, [], wave, none⟩, true)
    | .noArtifact => (⟨dur, 0, 0, 0, [], wave, none⟩, true)
    | .artifact none => (⟨dur, 0, 0, 0, [], wave, some midiName⟩, true)
    | .artifact (some evs) =>
      let m := calculate_metrics_from_midi evs dur
      (⟨dur, m.active_duration, m.efficiency, m.keystrokes, m.intervals, wave, some midiName⟩, true)

/-! ## `app.py`: Session records, recomputation and the ingestion step -/

/-- The persisted Session row (src/app.py, lines 28-39).  `date` is an
abstract timestamp; JSON columns are kept as their decoded values. -/
structure Session where
  hash : String
  date : Int
  filename : String
  total_duration : ℚ
  active_duration : ℚ
  keystrokes : Nat
  efficiency : ℚ
  waveform_json : List ℚ
  intervals_json : List (ℚ × ℚ)
  midi_url : Option String
deriving DecidableEq, Repr

/-- `admin_recalc_stats` (src/app.py, lines 534-562) on a loaded session:
errors (modelled as `none`) when there is no MIDI reference, the MIDI file
is missing, `total_duration` is falsy, or metric recalculation fails;
otherwise overwrites the four metric fields from
`calculate_metrics_from_midi`. -/
def admin_recalc_stats (s : Session) (midiFileExists : Bool)
    (midiEvents : Option (List MidiMsg)) : Option Session :=
  if s.midi_url = none then none
  else if midiFileExists = false then none
  else if s.total_duration = 0 then none
  else
    match midiEvents with
    | none => none
    | some evs =>
      let m := calculate_metrics_from_midi evs s.total_duration
      some { s with
        active_duration := m.active_duration,
        efficiency := m.efficiency,
        keystrokes := m.keystrokes,
        intervals_json := if ¬ m.intervals = [] then m.intervals else [] }

/-- What the worker did to one inbox file in one `process_uploads`
iteration. -/
structure StepResult where
  sessions : List Session
  inboxRemoved : Bool
  archived : Bool
deriving Repr

/-- A freshly persisted session for an analyzed file (only the fields the
ingestion claims depend on are derived; the rest mirror `analyze_audio`'s
result). -/
def mkSession (h : String) (fname : String) (date : Int) (r : AudioResult) : Session :=
  ⟨h, date, fname, r.total_duration, r.active_duration, r.keystrokes,
   r.efficiency, r.waveform, r.intervals, r.midi_filename⟩

/-- One file's pass through the `process_uploads` loop body (src/app.py,
lines 63-174): skip unstable or empty files; hash the content with
`hashFn` (`get_file_hash`, a deterministic function of the bytes); discard
a file whose fingerprint already has a session (`os.remove`, no archival,
no insert); otherwise analyze, persist and archive.  `analysis = none`
models `analyze_audio` returning `None` (file vanished). -/
def process_one_upload (hashFn : List Nat → String) (db : List Session)
    (content : List Nat) (fname : String) (date : Int)
    (stable : Bool) (nonzeroSize : Bool) (analysis : Option AudioResult) : StepResult :=
  if stable = false then ⟨db, false, false⟩
  else if nonzeroSize = false then ⟨db, false, false⟩
  else
    let h := hashFn content
    if db.any (fun s => s.hash = h) then ⟨db, true, false⟩
    else
      match analysis with
      | none => ⟨db, false, false⟩
      | some r => ⟨db ++ [mkSession h fname date r], true, true⟩

/-- Sum of the delta times of a message stream: the absolute time reached
after playing it from time 0. -/
def totalTime (msgs : List MidiMsg) : ℚ := (msgs.map MidiMsg.time).sum

/-- Counting invariant: closed intervals plus pending notes never exceed
the keystroke counter. -/
def countInv (st : ExtractState) : Prop :=
  st.raw.length + st.active.length ≤ st.keystrokes

/-- Time-bounds invariant: the clock is nonnegative, every pending start
and every closed interval lies within `[0, current_time]`, and closed
intervals have strictly positive length. -/
def timeInv (st : ExtractState) : Prop :=
  0 ≤ st.time ∧ (∀ p ∈ st.active, 0 ≤ p.2 ∧ p.2 ≤ st.time) ∧
    ∀ q ∈ st.raw, 0 ≤ q.1 ∧ q.1 < q.2 ∧ q.2 ≤ st.time

/-! ## Lemmas about the merge loop -/

/-- The first interval `mergeGo` emits starts at the padded, clamped start
of the group it was entered with. -/
theorem mergeGo_head (dur : ℚ) (l : List (ℚ × ℚ)) :
    ∀ cs ce, ∃ b tl, mergeGo dur cs ce l = (max 0 (cs - 1/2), b) :: tl := by
  induction l with
  | nil => exact fun cs ce => ⟨min dur (ce + 1/2), [], rfl⟩
  | cons p rest ih =>
    intro cs ce
    obtain ⟨ns, ne⟩ := p
    by_cases h : ns - ce ≤ gap_threshold
    · simpa [mergeGo, h] using ih cs (max ce ne)
    · exact ⟨min dur (ce + 1/2), mergeGo dur ns ne rest, by simp [mergeGo, h, sealInterval]⟩

/-- Consecutive merged intervals are separated: the earlier one ends
strictly before the later one starts (true without any assumption on the
input intervals). -/
theorem chain'_mergeGo (dur : ℚ) (l : List (ℚ × ℚ)) :
    ∀ cs ce, List.Chain' (fun a b : ℚ × ℚ => a.2 < b.1) (mergeGo dur cs ce l) := by
  induction l with
  | nil => intro cs ce; exact List.chain'_singleton _
  | cons p rest ih =>
    intro cs ce
    obtain ⟨ns, ne⟩ := p
    by_cases h : ns - ce ≤ gap_threshold
    · simpa [mergeGo, h] using ih cs (max ce ne)
    · have hgo : mergeGo dur cs ce ((ns, ne) :: rest) =
          sealInterval dur cs ce :: mergeGo dur ns ne rest := by
        simp [mergeGo, h]
      obtain ⟨b, tl, heq⟩ := mergeGo_head dur rest ns ne
      rw [hgo, heq]
      refine List.chain'_cons.mpr ⟨?_, heq ▸ ih ns ne⟩
      have hgap : (2 : ℚ) < ns - ce := by simpa [gap_threshold] using not_le.mp h
      calc (sealInterval dur cs ce).2 ≤ ce + 1/2 := min_le_right _ _
        _ < ns - 1/2 := by linarith
        _ ≤ max 0 (ns - 1/2) := le_max_right _ _

/-- Every merged interval starts at or after 0 and ends at or before
`dur` (true without any assumption on the input intervals). -/
theorem mem_mergeGo_basic (dur : ℚ) (l : List (ℚ × ℚ)) :
    ∀ cs ce, ∀ x ∈ mergeGo dur cs ce l, 0 ≤ x.1 ∧ x.2 ≤ dur := by
  induction l with
  | nil =>
    intro cs ce x hx
    simp only [mergeGo, List.mem_singleton] at hx
    subst hx
    exact ⟨le_max_left _ _, min_le_left _ _⟩
  | cons p rest ih =>
    intro cs ce x hx
    obtain ⟨ns, ne⟩ := p
    by_cases h : ns - ce ≤ gap_threshold
    · exact ih cs (max ce ne) x (by simpa [mergeGo, h] using hx)
    · simp only [mergeGo, h, if_neg, ite_false, List.mem_cons] at hx
      rcases hx with rfl | hx
      · exact ⟨le_max_left _ _, min_le_left _ _⟩
      · exact ih ns ne x hx

/-- When the current group and all remaining raw intervals lie in
`[0, B]` with `B ≤ dur` and have strictly positive length, every merged
interval additionally satisfies `start ≤ end`. -/
theorem mem_mergeGo_of_inv (dur B : ℚ) (hBd : B ≤ dur) (l : List (ℚ × ℚ)) :
    ∀ cs ce, 0 ≤ cs → cs < ce → ce ≤ B →
      (∀ q ∈ l, 0 ≤ q.1 ∧ q.1 < q.2 ∧ q.2 ≤ B) →
      ∀ x ∈ mergeGo dur cs ce l, 0 ≤ x.1 ∧ x.1 ≤ x.2 ∧ x.2 ≤ dur := by
  induction l with
  | nil =>
    intro cs ce h0 hlt hB _ x hx
    simp only [mergeGo, List.mem_singleton] at hx
    subst hx
    refine ⟨le_max_left _ _, ?_, min_le_left _ _⟩
    simp only [sealInterval, max_le_iff, le_min_iff]
    constructor
    · constructor <;> linarith
    · constructor <;> linarith
  | cons p rest ih =>
    intro cs ce h0 hlt hB hl x hx
    obtain ⟨ns, ne⟩ := p
    have hp := hl (ns, ne) (List.mem_cons_self _ _)
    have hrest : ∀ q ∈ rest, 0 ≤ q.1 ∧ q.1 < q.2 ∧ q.2 ≤ B :=
      fun q hq => hl q (List.mem_cons_of_mem _ hq)
    by_cases h : ns - ce ≤ gap_threshold
    · refine ih cs (max ce ne) h0 (lt_max_of_lt_left hlt) (max_le hB hp.2.2) hrest x ?_
      simpa [mergeGo, h] using hx
    · simp only [mergeGo, h, if_neg, ite_false, List.mem_cons] at hx
      rcases hx with rfl | hx
      · refine ⟨le_max_left _ _, ?_, min_le_left _ _⟩
        simp only [sealInterval, max_le_iff, le_min_iff]
        constructor
        · constructor <;> linarith
        · constructor <;> linarith
      · exact ih ns ne hp.1 hp.2.1 hp.2.2 hrest x hx

/-- The merge loop emits at most one interval per remaining raw interval,
plus one for the group in progress. -/
theorem length_mergeGo (dur : ℚ) (l : List (ℚ × ℚ)) :
    ∀ cs ce, (mergeGo dur cs ce l).length ≤ l.length + 1 := by
  induction l with
  | nil => intro cs ce; simp [mergeGo]
  | cons p rest ih =>
    intro cs ce
    obtain ⟨ns, ne⟩ := p
    by_cases h : ns - ce ≤ gap_threshold
    · calc (mergeGo dur cs ce ((ns, ne) :: rest)).length
          = (mergeGo dur cs (max ce ne) rest).length := by simp [mergeGo, h]
        _ ≤ rest.length + 1 := ih cs (max ce ne)
        _ ≤ ((ns, ne) :: rest).length + 1 := by simp
    · calc (mergeGo dur cs ce ((ns, ne) :: rest)).length
          = (mergeGo dur ns ne rest).length + 1 := by simp [mergeGo, h]
        _ ≤ rest.length + 1 + 1 := by have := ih ns ne; omega
        _ = ((ns, ne) :: rest).length + 1 := by simp

/-- Merging never produces more intervals than it consumes. -/
theorem length_mergeIntervals (dur : ℚ) (l : List (ℚ × ℚ)) :
    (mergeIntervals dur l).length ≤ l.length := by
  cases l with
  | nil => simp [mergeIntervals]
  | cons p rest =>
    obtain ⟨s, e⟩ := p
    simpa [mergeIntervals] using length_mergeGo dur rest s e

/-- A separated chain of intervals each of nonnegative length is pairwise
separated. -/
theorem chain'_sep_pairwise (l : List (ℚ × ℚ)) (hm : ∀ x ∈ l, x.1 ≤ x.2)
    (hc : List.Chain' (fun a b : ℚ × ℚ => a.2 < b.1) l) :
    List.Pairwise (fun a b : ℚ × ℚ => a.2 < b.1) l := by
  induction l with
  | nil => exact List.Pairwise.nil
  | cons a l ih =>
    have htl := ih (fun x hx => hm x (List.mem_cons_of_mem _ hx)) hc.tail
    refine List.pairwise_cons.mpr ⟨?_, htl⟩
    intro b hb
    cases l with
    | nil => simp at hb
    | cons c l2 =>
      have hac : a.2 < c.1 := (List.chain'_cons.mp hc).1
      rcases List.mem_cons.mp hb with rfl | hb2
      · exact hac
      · have hcb : c.2 < b.1 := (List.pairwise_cons.mp htl).1 b hb2
        have hc12 : c.1 ≤ c.2 := hm c (List.mem_cons_of_mem _ (List.mem_cons_self _ _))
        linarith

/-- Total length of a separated chain of intervals starting at `a`, all
ending at or before `dur`: at most `dur - a.1`. -/
theorem sum_lens_le (dur : ℚ) (l : List (ℚ × ℚ)) :
    ∀ a : ℚ × ℚ, List.Chain' (fun a b : ℚ × ℚ => a.2 < b.1) (a :: l) →
      (∀ x ∈ a :: l, x.2 ≤ dur) →
      ((a :: l).map (fun p => p.2 - p.1)).sum ≤ dur - a.1 := by
  induction l with
  | nil =>
    intro a _ hb
    have := hb a (List.mem_cons_self _ _)
    simp only [List.map_cons, List.map_nil, List.sum_cons, List.sum_nil, add_zero]
    linarith
  | cons b rest ih =>
    intro a hc hb
    have hab : a.2 < b.1 := (List.chain'_cons.mp hc).1
    have h2 := ih b (List.chain'_cons.mp hc).2
      (fun x hx => hb x (List.mem_cons_of_mem _ hx))
    simp only [List.map_cons, List.sum_cons] at h2 ⊢
    linarith

/-- Intervals of nonnegative length have nonnegative total length. -/
theorem sum_lens_nonneg (l : List (ℚ × ℚ)) (h : ∀ x ∈ l, x.1 ≤ x.2) :
    0 ≤ (l.map (fun p => p.2 - p.1)).sum := by
  induction l with
  | nil => simp
  | cons a l ih =>
    simp only [List.map_cons, List.sum_cons]
    have ha := h a (List.mem_cons_self _ _)
    have := ih (fun x hx => h x (List.mem_cons_of_mem _ hx))
    linarith

/-! ## Lemmas about note-interval extraction -/

/-- Every message advances `current_time` by exactly its delta time. -/
theorem stepMsg_time (st : ExtractState) (m : MidiMsg) :
    (stepMsg st m).time = st.time + m.time := by
  cases m with
  | noteOn n v t =>
    simp only [stepMsg, MidiMsg.time]
    split
    · rfl
    · split
      · cases lookupActive st.active n <;> rfl
      · rfl
  | noteOff n t =>
    simp only [stepMsg, MidiMsg.time]
    cases lookupActive st.active n <;> rfl
  | other t => rfl

/-- Folding the step function over a stream advances the clock by the sum
of the delta times. -/
theorem time_foldl (msgs : List MidiMsg) :
    ∀ st : ExtractState, (msgs.foldl stepMsg st).time = st.time + totalTime msgs := by
  induction msgs with
  | nil => intro st; simp [totalTime]
  | cons m rest ih =>
    intro st
    simp only [List.foldl_cons, totalTime, List.map_cons, List.sum_cons]
    rw [ih, stepMsg_time]
    simp only [totalTime]
    ring

/-- A dict assignment adds at most one entry. -/
theorem length_updateActive (l : List (Nat × ℚ)) (n : Nat) (t : ℚ) :
    (updateActive l n t).length ≤ l.length + 1 := by
  unfold updateActive
  split
  · simp
  · simp

/-- Elements after a dict assignment: an untouched old entry or the new
binding. -/
theorem mem_updateActive (l : List (Nat × ℚ)) (n : Nat) (t : ℚ) (x : Nat × ℚ)
    (hx : x ∈ updateActive l n t) : x ∈ l ∨ x = (n, t) := by
  unfold updateActive at hx
  split at hx
  · obtain ⟨p, hp, hpe⟩ := List.mem_map.mp hx
    by_cases h1 : p.1 = n
    · right; rw [← hpe]; simp [h1]
    · left; rw [← hpe]; simpa [h1] using hp
  · rcases List.mem_append.mp hx with h1 | h1
    · left; exact h1
    · right; simpa using h1

/-- A successful dict lookup exhibits a stored binding. -/
theorem lookupActive_mem (l : List (Nat × ℚ)) (n : Nat) (s : ℚ)
    (h : lookupActive l n = some s) : ∃ p ∈ l, p.1 = n ∧ p.2 = s := by
  unfold lookupActive at h
  cases hf : l.find? (fun p => p.1 = n) with
  | none => rw [hf] at h; simp at h
  | some p =>
    rw [hf] at h
    exact ⟨p, List.mem_of_find?_eq_some hf, by simpa using List.find?_some hf,
      Option.some.inj h⟩

/-- Removing a key that is present strictly shrinks the dict. -/
theorem length_removeActive_lt (l : List (Nat × ℚ)) (n : Nat)
    (h : ∃ p ∈ l, p.1 = n) : (removeActive l n).length < l.length := by
  induction l with
  | nil => simp at h
  | cons q rest ih =>
    by_cases hq : q.1 = n
    · have hrw : removeActive (q :: rest) n = removeActive rest n := by
        simp [removeActive, List.filter_cons, hq]
      rw [hrw]
      have := List.length_filter_le (fun p => decide (¬ p.1 = n)) rest
      simp only [removeActive, List.length_cons]
      omega
    · obtain ⟨p, hp, hpn⟩ := h
      rcases List.mem_cons.mp hp with rfl | hp2
      · exact absurd hpn hq
      · have hrw : removeActive (q :: rest) n = q :: removeActive rest n := by
          simp [removeActive, List.filter_cons, hq]
        rw [hrw]
        simpa using ih ⟨p, hp2, hpn⟩

/-- Removal keeps only old entries. -/
theorem mem_removeActive (l : List (Nat × ℚ)) (n : Nat) (x : Nat × ℚ)
    (hx : x ∈ removeActive l n) : x ∈ l :=
  List.mem_of_mem_filter hx

/-- Shape of the step on a qualifying attack. -/
theorem stepMsg_noteOn_high (st : ExtractState) (n v : Nat) (t : ℚ)
    (hv : MIN_VELOCITY ≤ v) :
    stepMsg st (.noteOn n v t) =
      { st with time := st.time + t, keystrokes := st.keystrokes + 1,
                active := updateActive st.active n (st.time + t) } := by
  simp [stepMsg, hv]

/-- Shape of the step on a sub-threshold, nonzero-velocity attack: only
the clock advances. -/
theorem stepMsg_noteOn_mid (st : ExtractState) (n v : Nat) (t : ℚ)
    (h0 : ¬ v = 0) (hv : ¬ MIN_VELOCITY ≤ v) :
    stepMsg st (.noteOn n v t) = { st with time := st.time + t } := by
  simp [stepMsg, hv, h0]

/-- Shape of the step on a note-off. -/
theorem stepMsg_release_eq (st : ExtractState) (n : Nat) (t : ℚ) :
    stepMsg st (.noteOff n t) =
      (match lookupActive st.active n with
       | some s =>
         { st with time := st.time + t, active := removeActive st.active n,
                   raw := if s < st.time + t then st.raw ++ [(s, st.time + t)] else st.raw }
       | none => { st with time := st.time + t }) := rfl

/-- A zero-velocity note-on is treated exactly as a note-off. -/
theorem stepMsg_noteOn_zero (st : ExtractState) (n : Nat) (t : ℚ) :
    stepMsg st (.noteOn n 0 t) = stepMsg st (.noteOff n t) := by
  simp [stepMsg, MIN_VELOCITY]

/-- The counting invariant is preserved by every message. -/
theorem countInv_step (st : ExtractState) (m : MidiMsg) (h : countInv st) :
    countInv (stepMsg st m) := by
  have hrel : ∀ n (t : ℚ), countInv (stepMsg st (.noteOff n t)) := by
    intro n t
    rw [stepMsg_release_eq]
    cases hl : lookupActive st.active n with
    | none => exact h
    | some s =>
      have h1 := length_removeActive_lt st.active n
        (by obtain ⟨p, hp, hn, _⟩ := lookupActive_mem _ _ _ hl; exact ⟨p, hp, hn⟩)
      unfold countInv at h ⊢
      dsimp only
      split
      · simp only [List.length_append, List.length_cons, List.length_nil]
        omega
      · omega
  cases m with
  | noteOn n v t =>
    by_cases hv : MIN_VELOCITY ≤ v
    · rw [stepMsg_noteOn_high st n v t hv]
      unfold countInv at h ⊢
      dsimp only
      have := length_updateActive st.active n (st.time + t)
      omega
    · by_cases h0 : v = 0
      · subst h0
        rw [stepMsg_noteOn_zero]
        exact hrel n t
      · rw [stepMsg_noteOn_mid st n v t h0 hv]
        exact h
  | noteOff n t => exact hrel n t
  | other t => exact h

/-- The counting invariant holds after folding any stream. -/
theorem countInv_foldl (msgs : List MidiMsg) :
    ∀ st : ExtractState, countInv st → countInv (msgs.foldl stepMsg st) := by
  induction msgs with
  | nil => exact fun st h => h
  | cons m rest ih => exact fun st h => ih _ (countInv_step st m h)

/-- The time-bounds invariant is preserved by any message with
nonnegative delta time. -/
theorem timeInv_step (st : ExtractState) (m : MidiMsg) (ht : 0 ≤ m.time)
    (h : timeInv st) : timeInv (stepMsg st m) := by
  obtain ⟨h0, ha, hr⟩ := h
  have hadv : ∀ t : ℚ, 0 ≤ t → timeInv { st with time := st.time + t } := by
    intro t ht0
    unfold timeInv
    dsimp only
    refine ⟨by linarith, ?_, ?_⟩
    · intro p hp
      have := ha p hp
      exact ⟨this.1, by linarith [this.2]⟩
    · intro q hq
      have := hr q hq
      exact ⟨this.1, this.2.1, by linarith [this.2.2]⟩
  have hrel : ∀ n (t : ℚ), 0 ≤ t → timeInv (stepMsg st (.noteOff n t)) := by
    intro n t ht0
    rw [stepMsg_release_eq]
    cases hl : lookupActive st.active n with
    | none => exact hadv t ht0
    | some s =>
      obtain ⟨p0, hp0, _, hp0s⟩ := lookupActive_mem _ _ _ hl
      have hs := ha p0 hp0
      unfold timeInv
      dsimp only
      refine ⟨by linarith, ?_, ?_⟩
      · intro p hp
        have := ha p (mem_removeActive _ _ _ hp)
        exact ⟨this.1, by linarith [this.2]⟩
      · intro q hq
        by_cases hcond : s < st.time + t
        · rw [if_pos hcond] at hq
          rcases List.mem_append.mp hq with hq1 | hq1
          · have := hr q hq1
            exact ⟨this.1, this.2.1, by linarith [this.2.2]⟩
          · simp only [List.mem_singleton] at hq1
            subst hq1
            exact ⟨hp0s ▸ hs.1, hcond, le_refl _⟩
        · rw [if_neg hcond] at hq
          have := hr q hq
          exact ⟨this.1, this.2.1, by linarith [this.2.2]⟩
  cases m with
  | noteOn n v t =>
    simp only [MidiMsg.time] at ht
    by_cases hv : MIN_VELOCITY ≤ v
    · rw [stepMsg_noteOn_high st n v t hv]
      unfold timeInv
      dsimp only
      refine ⟨by linarith, ?_, ?_⟩
      · intro p hp
        rcases mem_updateActive _ _ _ _ hp with hp1 | rfl
        · have := ha p hp1
          exact ⟨this.1, by linarith [this.2]⟩
        · exact ⟨by dsimp only; linarith, le_refl _⟩
      · intro q hq
        have := hr q hq
        exact ⟨this.1, this.2.1, by linarith [this.2.2]⟩
    · by_cases hz : v = 0
      · subst hz
        rw [stepMsg_noteOn_zero]
        exact hrel n t ht
      · rw [stepMsg_noteOn_mid st n v t hz hv]
        exact hadv t ht
  | noteOff n t => exact hrel n t (by simpa [MidiMsg.time] using ht)
  | other t => exact hadv t (by simpa [MidiMsg.time] using ht)

/-- The time-bounds invariant holds after folding any time-ordered
stream. -/
theorem timeInv_foldl (msgs : List MidiMsg) (hts : ∀ m ∈ msgs, 0 ≤ m.time) :
    ∀ st : ExtractState, timeInv st → timeInv (msgs.foldl stepMsg st) := by
  induction msgs with
  | nil => exact fun st h => h
  | cons m rest ih =>
    intro st h
    exact ih (fun x hx => hts x (List.mem_cons_of_mem _ hx)) _
      (timeInv_step st m (hts m (List.mem_cons_self _ _)) h)

/-- Raw intervals, including the end-of-stream closures, lie within
`[0, current_time]` and have strictly positive length. -/
theorem finalRaw_bounds (st : ExtractState) (h : timeInv st) :
    ∀ q ∈ finalRaw st, 0 ≤ q.1 ∧ q.1 < q.2 ∧ q.2 ≤ st.time := by
  intro q hq
  rcases List.mem_append.mp hq with h1 | h1
  · exact h.2.2 q h1
  · obtain ⟨p, hp, rfl⟩ := List.mem_map.mp h1
    have hpf := List.mem_of_mem_filter hp
    have hcond : p.2 < st.time := by simpa using List.of_mem_filter hp
    exact ⟨(h.2.1 p hpf).1, hcond, le_refl _⟩

/-- Raw intervals, including the end-of-stream closures, number at most
the keystrokes. -/
theorem finalRaw_length (st : ExtractState) (h : countInv st) :
    (finalRaw st).length ≤ st.keystrokes := by
  unfold countInv at h
  unfold finalRaw
  simp only [List.length_append, List.length_map]
  have := List.length_filter_le (fun p => decide (p.2 < st.time)) st.active
  omega

/-- A dict assignment makes the assigned value the one subsequent lookups
see, whether or not the key was already present. -/
theorem lookup_updateActive (l : List (Nat × ℚ)) (n : Nat) (t : ℚ) :
    lookupActive (updateActive l n t) n = some t := by
  unfold updateActive
  split
  · rename_i hany
    induction l with
    | nil => simp at hany
    | cons p rest ih =>
      by_cases hp : p.1 = n
      · simp [lookupActive, List.find?_cons, hp]
      · simp only [List.map_cons, if_neg hp]
        have hrest : rest.any (fun p => p.1 = n) := by
          simp only [List.any_cons, hp] at hany
          simpa using hany
        simpa [lookupActive, List.find?_cons, hp] using ih hrest
  · rename_i hany
    induction l with
    | nil => simp [lookupActive]
    | cons p rest ih =>
      have hp : ¬ p.1 = n := by
        intro hc
        exact hany (by simp [List.any_cons, hc])
      have hrest : ¬ rest.any (fun p => p.1 = n) = true := by
        intro hc
        exact hany (by simp [List.any_cons, hc])
      simpa [lookupActive, List.find?_cons, hp] using ih hrest

/-- Sorting the raw intervals preserves membership. -/
theorem mem_sortIntervals {l : List (ℚ × ℚ)} {x : ℚ × ℚ} :
    x ∈ sortIntervals l ↔ x ∈ l :=
  List.mem_insertionSort _

/-- Sorting the raw intervals preserves length. -/
theorem length_sortIntervals (l : List (ℚ × ℚ)) :
    (sortIntervals l).length = l.length :=
  List.length_insertionSort _ _

/-- `active_duration` is the total length of the returned intervals, and
`efficiency` is `active_duration / duration` guarded by `0 < duration`. -/
theorem calc_fields (msgs : List MidiMsg) (dur : ℚ) :
    (calculate_metrics_from_midi msgs dur).active_duration =
      ((calculate_metrics_from_midi msgs dur).intervals.map (fun p => p.2 - p.1)).sum ∧
    (calculate_metrics_from_midi msgs dur).efficiency =
      (if 0 < dur then (calculate_metrics_from_midi msgs dur).active_duration / dur else 0) := by
  unfold calculate_metrics_from_midi
  dsimp only
  split
  · constructor
    · simp
    · split <;> simp
  · constructor
    · rfl
    · rfl

/-- Facts about the merged interval list of `calculate_metrics_from_midi`
for a time-ordered stream staying within `[0, dur]`: consecutive merged
intervals are separated, and each lies within `[0, dur]` with
nonnegative length. -/
theorem merged_facts (msgs : List MidiMsg) (dur : ℚ)
    (hts : ∀ m ∈ msgs, 0 ≤ m.time) (hbound : totalTime msgs ≤ dur) :
    List.Chain' (fun a b : ℚ × ℚ => a.2 < b.1)
      (calculate_metrics_from_midi msgs dur).intervals ∧
    ∀ x ∈ (calculate_metrics_from_midi msgs dur).intervals,
      0 ≤ x.1 ∧ x.1 ≤ x.2 ∧ x.2 ≤ dur := by
  have hti : timeInv (msgs.foldl stepMsg initState) :=
    timeInv_foldl msgs hts initState (by unfold timeInv initState; simp)
  have htime : (msgs.foldl stepMsg initState).time = totalTime msgs := by
    have := time_foldl msgs initState
    simpa [initState] using this
  unfold calculate_metrics_from_midi
  dsimp only
  split
  · simp
  · have hbounds : ∀ q ∈ sortIntervals (finalRaw (msgs.foldl stepMsg initState)),
        0 ≤ q.1 ∧ q.1 < q.2 ∧ q.2 ≤ totalTime msgs := by
      intro q hq
      have hb := finalRaw_bounds _ hti q (mem_sortIntervals.mp hq)
      rw [htime] at hb
      exact hb
    cases hs : sortIntervals (finalRaw (msgs.foldl stepMsg initState)) with
    | nil => simp [mergeIntervals]
    | cons p rest =>
      obtain ⟨s, e⟩ := p
      have hp := hbounds (s, e) (hs ▸ List.mem_cons_self _ _)
      have hrest : ∀ q ∈ rest, 0 ≤ q.1 ∧ q.1 < q.2 ∧ q.2 ≤ totalTime msgs :=
        fun q hq => hbounds q (hs ▸ List.mem_cons_of_mem _ hq)
      constructor
      · exact chain'_mergeGo dur rest s e
      · exact mem_mergeGo_of_inv dur (totalTime msgs) hbound rest s e
          hp.1 hp.2.1 hp.2.2 hrest

/-- Folding `max` from 0 over an all-zero list stays 0. -/
theorem foldl_max_zero (l : List ℚ) :
    ∀ a : ℚ, a = 0 → (∀ x ∈ l, x = 0) → l.foldl max a = 0 := by
  induction l with
  | nil => intro a ha _; simpa using ha
  | cons x xs ih =>
    intro a ha hx
    simp only [List.foldl_cons]
    refine ih _ ?_ (fun y hy => hx y (List.mem_cons_of_mem _ hy))
    rw [ha, hx x (List.mem_cons_self _ _)]
    simp

/-- `np.max` of a uniformly zero curve is 0. -/
theorem npMax_all_zero (l : List ℚ) (h : ∀ x ∈ l, x = 0) : npMax l = 0 := by
  cases l with
  | nil => rfl
  | cons x xs =>
    exact foldl_max_zero xs x (h x (List.mem_cons_self _ _))
      (fun y hy => h y (List.mem_cons_of_mem _ hy))

/-! ## Claim theorems -/

/-- C1, counterexample: in the stream (attack note 60 velocity 80 at time
0, attack note 60 velocity 80 at time 1, release note 60 at time 2;
total_duration 10) the code closes the interval from the LATEST
qualifying attack — `active_notes[note] = current_time` overwrites the
pending start — yielding merged intervals `[(1/2, 5/2)]`, whereas the
claimed keep-earliest policy yields `[(0, 5/2)]`.  The claim fails on the
code. -/
theorem C1_counterexample :
    (calculate_metrics_from_midi
      [MidiMsg.noteOn 60 80 0, MidiMsg.noteOn 60 80 1, MidiMsg.noteOff 60 1] 10).intervals
      = [(1/2, 5/2)] ∧
    (specKeepEarliestMetrics
      [MidiMsg.noteOn 60 80 0, MidiMsg.noteOn 60 80 1, MidiMsg.noteOff 60 1] 10).intervals
      = [(0, 5/2)] ∧
    ¬ ([((1:ℚ)/2, (5:ℚ)/2)] = [((0:ℚ), (5:ℚ)/2)]) := by
  with_unfolding_all decide

/-- C1 (amended): when a qualifying attack (velocity ≥ `MIN_VELOCITY`)
for a note is processed, `calculate_metrics_from_midi` overwrites any
pending unmatched attack of that note: the pending start becomes the
timestamp of this latest qualifying attack, so the interval eventually
closed for the note starts at the LATEST unmatched qualifying attack,
not the earliest. -/
theorem C1_amended_overwrite (st : ExtractState) (n v : Nat) (t : ℚ)
    (hv : MIN_VELOCITY ≤ v) :
    lookupActive (stepMsg st (.noteOn n v t)).active n = some (st.time + t) := by
  rw [stepMsg_noteOn_high st n v t hv]
  exact lookup_updateActive st.active n (st.time + t)

/-- Witness for `C1_amended_overwrite` at a concrete state and message. -/
theorem C1_amended_overwrite_witness :
    MIN_VELOCITY ≤ 80 ∧
    lookupActive (stepMsg initState (MidiMsg.noteOn 60 80 1)).active 60 =
      some (initState.time + 1) :=
  ⟨by decide, C1_amended_overwrite initState 60 80 1 (by decide)⟩

/-- C2, counterexample: for the time-ordered stream (attack note 60
velocity 80 at time 2, release at time 3) with total_duration 1, the sole
raw interval (2, 3) is padded and clamped to (3/2, 1), whose length is
negative, so `efficiency = -1/2 < 0`: the claimed `0 ≤ efficiency` fails
on the code when event timestamps exceed total_duration. -/
theorem C2_counterexample :
    (0 : ℚ) < 1 ∧
    (∀ m ∈ [MidiMsg.noteOn 60 80 2, MidiMsg.noteOff 60 1], 0 ≤ m.time) ∧
    (calculate_metrics_from_midi
      [MidiMsg.noteOn 60 80 2, MidiMsg.noteOff 60 1] 1).efficiency < 0 := by
  with_unfolding_all decide

/-- C2 (amended): for every time-ordered note-event stream whose event
timestamps stay within the recording (`totalTime msgs ≤ total_duration`)
and every total_duration > 0, `active_duration ≤ total_duration` and
`0 ≤ efficiency ≤ 1`. -/
theorem C2_amended_bounds (msgs : List MidiMsg) (dur : ℚ) (hdur : 0 < dur)
    (hts : ∀ m ∈ msgs, 0 ≤ m.time) (hbound : totalTime msgs ≤ dur) :
    (calculate_metrics_from_midi msgs dur).active_duration ≤ dur ∧
    0 ≤ (calculate_metrics_from_midi msgs dur).efficiency ∧
    (calculate_metrics_from_midi msgs dur).efficiency ≤ 1 := by
  obtain ⟨hchain, hmem⟩ := merged_facts msgs dur hts hbound
  obtain ⟨hact, heff⟩ := calc_fields msgs dur
  have hact_le : (calculate_metrics_from_midi msgs dur).active_duration ≤ dur := by
    rw [hact]
    cases hi : (calculate_metrics_from_midi msgs dur).intervals with
    | nil => simpa using hdur.le
    | cons a l =>
      have h1 := sum_lens_le dur l a (hi ▸ hchain)
        (fun x hx => (hmem x (hi.symm ▸ hx)).2.2)
      have h2 := (hmem a (hi.symm ▸ List.mem_cons_self _ _)).1
      calc ((a :: l).map (fun p => p.2 - p.1)).sum ≤ dur - a.1 := h1
        _ ≤ dur := by linarith
  have hact0 : 0 ≤ (calculate_metrics_from_midi msgs dur).active_duration := by
    rw [hact]
    exact sum_lens_nonneg _ (fun x hx => (hmem x hx).2.1)
  refine ⟨hact_le, ?_, ?_⟩
  · rw [heff, if_pos hdur]
    exact div_nonneg hact0 hdur.le
  · rw [heff, if_pos hdur]
    exact (div_le_one hdur).mpr hact_le

/-- Witness for `C2_amended_bounds` at a concrete stream and duration. -/
theorem C2_amended_bounds_witness :
    (0 : ℚ) < 10 ∧
    (∀ m ∈ [MidiMsg.noteOn 60 80 1, MidiMsg.noteOff 60 1], 0 ≤ m.time) ∧
    totalTime [MidiMsg.noteOn 60 80 1, MidiMsg.noteOff 60 1] ≤ 10 ∧
    ((calculate_metrics_from_midi
        [MidiMsg.noteOn 60 80 1, MidiMsg.noteOff 60 1] 10).active_duration ≤ 10 ∧
      0 ≤ (calculate_metrics_from_midi
        [MidiMsg.noteOn 60 80 1, MidiMsg.noteOff 60 1] 10).efficiency ∧
      (calculate_metrics_from_midi
        [MidiMsg.noteOn 60 80 1, MidiMsg.noteOff 60 1] 10).efficiency ≤ 1) :=
  ⟨by with_unfolding_all decide, by with_unfolding_all decide,
   by with_unfolding_all decide,
   C2_amended_bounds _ _ (by with_unfolding_all decide)
     (by with_unfolding_all decide) (by with_unfolding_all decide)⟩

/-- C3, counterexample: for the time-ordered stream (attack note 64
velocity 90 at time 5, release at time 6) with total_duration 4, the
merged list is `[(9/2, 4)]`: its interval has start 9/2 > end 4, so the
claimed `0 ≤ start ≤ end ≤ total_duration` fails on the code when event
timestamps exceed total_duration. -/
theorem C3_counterexample :
    (0 : ℚ) ≤ 4 ∧
    (∀ m ∈ [MidiMsg.noteOn 64 90 5, MidiMsg.noteOff 64 1], 0 ≤ m.time) ∧
    (calculate_metrics_from_midi
      [MidiMsg.noteOn 64 90 5, MidiMsg.noteOff 64 1] 4).intervals = [(9/2, 4)] ∧
    ¬ ((9 : ℚ)/2 ≤ 4) := by
  with_unfolding_all decide

/-- C3 (amended): for every time-ordered note-event stream whose event
timestamps stay within the recording (`totalTime msgs ≤ total_duration`)
and every non-negative total_duration, the merged `active_intervals` list
is sorted ascending by start, pairwise non-overlapping (each interval
ends strictly before the next starts), and every interval satisfies
`0 ≤ start ≤ end ≤ total_duration`. -/
theorem C3_amended_intervals (msgs : List MidiMsg) (dur : ℚ) (_hdur : 0 ≤ dur)
    (hts : ∀ m ∈ msgs, 0 ≤ m.time) (hbound : totalTime msgs ≤ dur) :
    List.Sorted (fun a b : ℚ × ℚ => a.1 ≤ b.1)
      (calculate_metrics_from_midi msgs dur).intervals ∧
    List.Pairwise (fun a b : ℚ × ℚ => a.2 < b.1)
      (calculate_metrics_from_midi msgs dur).intervals ∧
    ∀ x ∈ (calculate_metrics_from_midi msgs dur).intervals,
      0 ≤ x.1 ∧ x.1 ≤ x.2 ∧ x.2 ≤ dur := by
  obtain ⟨hchain, hmem⟩ := merged_facts msgs dur hts hbound
  have hpair := chain'_sep_pairwise _ (fun x hx => (hmem x hx).2.1) hchain
  refine ⟨?_, hpair, hmem⟩
  exact List.Pairwise.imp_of_mem
    (fun {a b} ha _hb hr => le_trans (hmem a ha).2.1 hr.le) hpair

/-- Witness for `C3_amended_intervals` at a concrete stream and
duration. -/
theorem C3_amended_intervals_witness :
    (0 : ℚ) ≤ 8 ∧
    (∀ m ∈ [MidiMsg.noteOn 64 90 2, MidiMsg.noteOff 64 1], 0 ≤ m.time) ∧
    totalTime [MidiMsg.noteOn 64 90 2, MidiMsg.noteOff 64 1] ≤ 8 ∧
    (List.Sorted (fun a b : ℚ × ℚ => a.1 ≤ b.1)
      (calculate_metrics_from_midi
        [MidiMsg.noteOn 64 90 2, MidiMsg.noteOff 64 1] 8).intervals ∧
     List.Pairwise (fun a b : ℚ × ℚ => a.2 < b.1)
      (calculate_metrics_from_midi
        [MidiMsg.noteOn 64 90 2, MidiMsg.noteOff 64 1] 8).intervals ∧
     ∀ x ∈ (calculate_metrics_from_midi
        [MidiMsg.noteOn 64 90 2, MidiMsg.noteOff 64 1] 8).intervals,
       0 ≤ x.1 ∧ x.1 ≤ x.2 ∧ x.2 ≤ 8) :=
  ⟨by with_unfolding_all decide, by with_unfolding_all decide,
   by with_unfolding_all decide,
   C3_amended_intervals _ _ (by with_unfolding_all decide)
     (by with_unfolding_all decide) (by with_unfolding_all decide)⟩

/-- C4 (confirmed): for every note-event stream and duration, the
keystroke count is at least the number of merged intervals. -/
theorem C4_keystrokes_ge_intervals (msgs : List MidiMsg) (dur : ℚ) :
    (calculate_metrics_from_midi msgs dur).intervals.length ≤
      (calculate_metrics_from_midi msgs dur).keystrokes := by
  have hcnt : countInv (msgs.foldl stepMsg initState) :=
    countInv_foldl msgs initState (by unfold countInv initState; simp)
  unfold calculate_metrics_from_midi
  dsimp only
  split
  · simp
  · calc (mergeIntervals dur (sortIntervals (finalRaw (msgs.foldl stepMsg initState)))).length
        ≤ (sortIntervals (finalRaw (msgs.foldl stepMsg initState))).length :=
          length_mergeIntervals _ _
      _ = (finalRaw (msgs.foldl stepMsg initState)).length := length_sortIntervals _
      _ ≤ (msgs.foldl stepMsg initState).keystrokes := finalRaw_length _ hcnt

/-- C5 (confirmed): the spec scenario — attack note 60 velocity 80 at
absolute time 0, release at 3, attack note 62 velocity 80 at 4.5
(delta 3/2), release at 5 (delta 1/2), total_duration 10 — yields one
merged interval `[0, 11/2]` (gap 1.5 ≤ 2 merges; padding and clamping
give `[0, 5.5]`), keystroke_count 2, active_duration 11/2 = 5.5 and
efficiency 11/20 = 0.55. -/
theorem C5_scenario :
    calculate_metrics_from_midi
      [MidiMsg.noteOn 60 80 0, MidiMsg.noteOff 60 3,
       MidiMsg.noteOn 62 80 (3/2), MidiMsg.noteOff 62 (1/2)] 10 =
      ⟨11/2, 11/20, 2, [(0, 11/2)]⟩ := by
  with_unfolding_all decide

/-- C10 (confirmed): an attack with velocity strictly between 0 and the
threshold 70 only advances the clock — it adds no keystroke, opens no
interval, closes no pending note and leaves the pending-attack dict
untouched — and consequently the whole metric computation treats it
exactly like a non-note message with the same delta time, in any
position of any stream. -/
theorem C10_subthreshold_attack_noop (n v : Nat) (t dur : ℚ)
    (pre rest : List MidiMsg) (h0 : 0 < v) (h70 : v < MIN_VELOCITY) :
    (∀ st : ExtractState,
      stepMsg st (.noteOn n v t) = { st with time := st.time + t }) ∧
    calculate_metrics_from_midi (pre ++ MidiMsg.noteOn n v t :: rest) dur =
      calculate_metrics_from_midi (pre ++ MidiMsg.other t :: rest) dur := by
  have hstep : ∀ st : ExtractState,
      stepMsg st (.noteOn n v t) = { st with time := st.time + t } :=
    fun st => stepMsg_noteOn_mid st n v t (by omega) (by omega)
  refine ⟨hstep, ?_⟩
  have hfold : (pre ++ MidiMsg.noteOn n v t :: rest).foldl stepMsg initState =
      (pre ++ MidiMsg.other t :: rest).foldl stepMsg initState := by
    rw [List.foldl_append, List.foldl_append, List.foldl_cons, List.foldl_cons,
      hstep]
    rfl
  unfold calculate_metrics_from_midi
  rw [hfold]

/-- Witness for `C10_subthreshold_attack_noop` at a concrete velocity-40
attack. -/
theorem C10_subthreshold_attack_noop_witness :
    0 < 40 ∧ 40 < MIN_VELOCITY ∧
    calculate_metrics_from_midi [MidiMsg.noteOn 60 40 1] 10 =
      calculate_metrics_from_midi [MidiMsg.other 1] 10 :=
  ⟨by decide, by decide,
    (C10_subthreshold_attack_noop 60 40 1 10 [] [] (by decide) (by decide)).2⟩

/-- C6 (confirmed): when the short-time RMS curve is empty or uniformly
zero, `analyze_audio` returns total_duration = sample_count/sample_rate,
zero metrics, an empty interval list and no MIDI artifact reference, and
does not invoke the transcription collaborator (the Bool component is
`false`). -/
theorem C6_rms_short_circuit (y : List ℚ) (sr : Nat) (rms : List ℚ)
    (outcome : TranscriptionOutcome) (midiName : String)
    (h : rms = [] ∨ ∀ x ∈ rms, x = 0) :
    analyze_audio y sr rms outcome midiName =
      (⟨(y.length : ℚ) / (sr : ℚ), 0, 0, 0, [],
        generate_waveform_data (normalize y) sr, none⟩, false) := by
  have hcond : rms = [] ∨ npMax rms = 0 := h.imp id (npMax_all_zero rms)
  simp only [analyze_audio]
  rw [if_pos hcond]

/-- Witness for `C6_rms_short_circuit` on a 1-sample recording with an
all-zero RMS curve. -/
theorem C6_rms_short_circuit_witness :
    (([(0 : ℚ)] : List ℚ) = [] ∨ ∀ x ∈ [(0 : ℚ)], x = 0) ∧
    analyze_audio [1] 2 [0] TranscriptionOutcome.raises "m" =
      (⟨(([(1 : ℚ)] : List ℚ).length : ℚ) / ((2 : Nat) : ℚ), 0, 0, 0, [],
        generate_waveform_data (normalize [1]) 2, none⟩, false) :=
  ⟨Or.inr (by simp), C6_rms_short_circuit [1] 2 [0] TranscriptionOutcome.raises "m"
    (Or.inr (by simp))⟩

/-- C7 (confirmed): when transcription fails on a non-silent input —
`predict_and_save` raises or the expected MIDI artifact is absent —
`analyze_audio` does not propagate the failure: it returns zero metrics,
an empty interval list and no MIDI reference, while total_duration and
the waveform envelope are still populated (the collaborator was invoked:
Bool component `true`). -/
theorem C7_transcription_failure_degrades (y : List ℚ) (sr : Nat) (rms : List ℚ)
    (outcome : TranscriptionOutcome) (midiName : String)
    (hns : ¬ (rms = [] ∨ npMax rms = 0))
    (hfail : outcome = .raises ∨ outcome = .noArtifact) :
    analyze_audio y sr rms outcome midiName =
      (⟨(y.length : ℚ) / (sr : ℚ), 0, 0, 0, [],
        generate_waveform_data (normalize y) sr, none⟩, true) := by
  rcases hfail with rfl | rfl <;>
    (simp only [analyze_audio]; rw [if_neg hns])

/-- Witness for `C7_transcription_failure_degrades` on a non-silent
recording whose transcription raises. -/
theorem C7_transcription_failure_degrades_witness :
    ¬ (([(1 : ℚ)] : List ℚ) = [] ∨ npMax [(1 : ℚ)] = 0) ∧
    analyze_audio [1] 2 [1] TranscriptionOutcome.raises "m" =
      (⟨(([(1 : ℚ)] : List ℚ).length : ℚ) / ((2 : Nat) : ℚ), 0, 0, 0, [],
        generate_waveform_data (normalize [1]) 2, none⟩, true) :=
  ⟨by with_unfolding_all decide,
   C7_transcription_failure_degrades [1] 2 [1] TranscriptionOutcome.raises "m"
     (by with_unfolding_all decide) (Or.inl rfl)⟩

/-- C8 (confirmed): a successful `admin_recalc_stats` overwrites only the
four metric fields; the fingerprint (`hash`), `total_duration` and
`filename` — and also `date`, the waveform and the MIDI reference — are
unchanged. -/
theorem C8_recalc_frame (s : Session) (midiFileExists : Bool)
    (midiEvents : Option (List MidiMsg)) (s' : Session)
    (h : admin_recalc_stats s midiFileExists midiEvents = some s') :
    s'.hash = s.hash ∧ s'.total_duration = s.total_duration ∧
    s'.filename = s.filename ∧ s'.date = s.date ∧
    s'.waveform_json = s.waveform_json ∧ s'.midi_url = s.midi_url := by
  unfold admin_recalc_stats at h
  split at h
  · simp at h
  split at h
  · simp at h
  split at h
  · simp at h
  cases midiEvents with
  | none => simp at h
  | some evs =>
    dsimp only at h
    have he := Option.some.inj h
    subst he
    exact ⟨rfl, rfl, rfl, rfl, rfl, rfl⟩

/-- Witness for `C8_recalc_frame` on a concrete stored session. -/
theorem C8_recalc_frame_witness :
    admin_recalc_stats ⟨"h", 7, "f.wav", 1, 5, 3, 1/2, [1], [(1, 2)], some "m"⟩
        true (some []) =
      some ⟨"h", 7, "f.wav", 1, 0, 0, 0, [1], [], some "m"⟩ ∧
    (⟨"h", 7, "f.wav", 1, 0, 0, 0, [1], [], some "m"⟩ : Session).hash =
      (⟨"h", 7, "f.wav", 1, 5, 3, 1/2, [1], [(1, 2)], some "m"⟩ : Session).hash ∧
    (⟨"h", 7, "f.wav", 1, 0, 0, 0, [1], [], some "m"⟩ : Session).total_duration =
      (⟨"h", 7, "f.wav", 1, 5, 3, 1/2, [1], [(1, 2)], some "m"⟩ : Session).total_duration ∧
    (⟨"h", 7, "f.wav", 1, 0, 0, 0, [1], [], some "m"⟩ : Session).filename =
      (⟨"h", 7, "f.wav", 1, 5, 3, 1/2, [1], [(1, 2)], some "m"⟩ : Session).filename ∧
    (⟨"h", 7, "f.wav", 1, 0, 0, 0, [1], [], some "m"⟩ : Session).date =
      (⟨"h", 7, "f.wav", 1, 5, 3, 1/2, [1], [(1, 2)], some "m"⟩ : Session).date ∧
    (⟨"h", 7, "f.wav", 1, 0, 0, 0, [1], [], some "m"⟩ : Session).waveform_json =
      (⟨"h", 7, "f.wav", 1, 5, 3, 1/2, [1], [(1, 2)], some "m"⟩ : Session).waveform_json ∧
    (⟨"h", 7, "f.wav", 1, 0, 0, 0, [1], [], some "m"⟩ : Session).midi_url =
      (⟨"h", 7, "f.wav", 1, 5, 3, 1/2, [1], [(1, 2)], some "m"⟩ : Session).midi_url :=
  have h : admin_recalc_stats ⟨"h", 7, "f.wav", 1, 5, 3, 1/2, [1], [(1, 2)], some "m"⟩
      true (some []) = some ⟨"h", 7, "f.wav", 1, 0, 0, 0, [1], [], some "m"⟩ := by
    with_unfolding_all decide
  ⟨h, C8_recalc_frame _ true (some []) _ h⟩

/-- C9 (confirmed): a file whose fingerprint already has a persisted
session is discarded (removed from the inbox, not archived) and the
session list is unchanged; and submitting the same byte content twice —
under any filenames — yields exactly one persisted session with that
fingerprint, whatever happens to the second copy. -/
theorem C9_dedup (hashFn : List Nat → String) (content : List Nat) :
    (∀ (db : List Session) (fname : String) (date : Int)
       (analysis : Option AudioResult),
       (∃ s ∈ db, s.hash = hashFn content) →
       process_one_upload hashFn db content fname date true true analysis =
         ⟨db, true, false⟩) ∧
    (∀ (db : List Session) (fname1 fname2 : String) (date1 date2 : Int)
       (r1 : AudioResult) (st2 nz2 : Bool) (an2 : Option AudioResult),
       (db.filter (fun s => s.hash = hashFn content)).length = 0 →
       ((process_one_upload hashFn
           (process_one_upload hashFn db content fname1 date1 true true
             (some r1)).sessions
           content fname2 date2 st2 nz2 an2).sessions.filter
           (fun s => s.hash = hashFn content)).length = 1) := by
  constructor
  · intro db fname date analysis hex
    have hany : db.any (fun s => s.hash = hashFn content) = true := by
      simp only [List.any_eq_true, decide_eq_true_eq]
      exact hex
    simp [process_one_upload, hany]
  · intro db f1 f2 d1 d2 r1 st2 nz2 an2 hzero
    have hmemno : ∀ s ∈ db, ¬ s.hash = hashFn content := by
      intro s hs hc
      have hmem : s ∈ db.filter (fun s => s.hash = hashFn content) :=
        List.mem_filter.mpr ⟨hs, by simpa using hc⟩
      rw [List.length_eq_zero] at hzero
      rw [hzero] at hmem
      simp at hmem
    have hnone : db.any (fun s => s.hash = hashFn content) = false := by
      simp only [List.any_eq_false, decide_eq_true_eq]
      exact hmemno
    have hstep1 : process_one_upload hashFn db content f1 d1 true true (some r1) =
        ⟨db ++ [mkSession (hashFn content) f1 d1 r1], true, true⟩ := by
      simp [process_one_upload, hnone]
    rw [hstep1]
    have hany2 : (db ++ [mkSession (hashFn content) f1 d1 r1]).any
        (fun s => s.hash = hashFn content) = true := by
      simp [mkSession]
    cases st2
    · simp [process_one_upload, mkSession, hzero]
    · cases nz2
      · simp [process_one_upload, mkSession, hzero]
      · simp [process_one_upload, hany2, mkSession, hzero]

/-- Witness for `C9_dedup`: a duplicate arrival against a one-session
store, and a double submission of the same bytes from an empty store. -/
theorem C9_dedup_witness :
    (∃ s ∈ [(⟨"h", 0, "old.wav", 1, 0, 0, 0, [], [], none⟩ : Session)],
       s.hash = (fun _ : List Nat => "h") [1, 2]) ∧
    process_one_upload (fun _ => "h")
        [(⟨"h", 0, "old.wav", 1, 0, 0, 0, [], [], none⟩ : Session)]
        [1, 2] "dup.wav" 5 true true none =
      ⟨[(⟨"h", 0, "old.wav", 1, 0, 0, 0, [], [], none⟩ : Session)], true, false⟩ ∧
    (([] : List Session).filter
        (fun s => s.hash = (fun _ : List Nat => "h") [1, 2])).length = 0 ∧
    ((process_one_upload (fun _ => "h")
        (process_one_upload (fun _ => "h") [] [1, 2] "a.wav" 1 true true
          (some ⟨1, 0, 0, 0, [], [], none⟩)).sessions
        [1, 2] "b.wav" 2 true true none).sessions.filter
        (fun s => s.hash = (fun _ : List Nat => "h") [1, 2])).length = 1 :=
  ⟨⟨⟨"h", 0, "old.wav", 1, 0, 0, 0, [], [], none⟩, by simp, rfl⟩,
   (C9_dedup (fun _ => "h") [1, 2]).1 _ "dup.wav" 5 none
     ⟨⟨"h", 0, "old.wav", 1, 0, 0, 0, [], [], none⟩, by simp, rfl⟩,
   rfl,
   (C9_dedup (fun _ => "h") [1, 2]).2 [] "a.wav" "b.wav" 1 2
     ⟨1, 0, 0, 0, [], [], none⟩ true true none rfl⟩

end SonataLog
